import Mathlib

/-!
Verification development for `split-to-chapters.py`, a utility that splits a
book PDF into per-chapter PDFs using the LaTeX `.toc` file for boundaries.

The shallow embedding below translates the script's pure computations into
Lean functions:

* `compute_ranges` embeds `compute_ranges` (lines 72-83): the indexed Python
  loop with a one-entry lookahead becomes structural recursion where the
  lookahead is the head of the remaining list.
* `Page` / `is_blank_page` embed `is_blank_page` (lines 86-103).  A pypdf
  page is abstracted by the two observations the function makes of it:
  the outcome of `page.get_contents()` (a value that may be `None`, or an
  exception) and the outcome of `page.extract_text()` (a string that the
  code guards with `or ""` against `None`, or an exception).
* `split_pdf` / `split_pdf_loop` embed `split_pdf` (lines 106-135).  Writing
  a chapter file is modelled as recording the resolved filename together
  with the list of 0-based source page indices added to the `PdfWriter`;
  serialization by the external library is a function of those pages.
* `sanitize_filename` embeds `_sanitize_filename` (lines 138-144), with each
  regex substitution modelled on the character list of the string:
  `[\\/]+ -> "-"` and `\s+ -> " "` replace maximal runs (`subRuns`),
  `[^\w\-. ]+ -> ""` deletes characters (`List.filter`), and `str.strip`
  drops leading/trailing Python whitespace (`pyStrip`).
-/

namespace SplitToChapters

/-- The characters removed by Python's `str.strip()` with no argument and
matched by the regex class `\s` (ASCII range; the inputs of interest are
filenames built from TOC titles). -/
def pyWs (c : Char) : Bool :=
  c == ' ' || c == '\t' || c == '\n' || c == '\r' || c == '\x0b' || c == '\x0c'

/-- Model of the regex word class `\w` used in `_sanitize_filename`'s
character class `[\w\-. ]`: letters, digits and underscore. -/
def isWordChar (c : Char) : Bool :=
  c.isAlpha || c.isDigit || c == '_'

/-- The path-separator class `[\\/]` of `_sanitize_filename`. -/
def isSep (c : Char) : Bool :=
  c == '\\' || c == '/'

/-- The character class `[\w\-. ]` kept by `_sanitize_filename`. -/
def inFileClass (c : Char) : Bool :=
  isWordChar c || c == '-' || c == '.' || c == ' '

/-- Drop trailing characters satisfying `p` (the right half of `strip`). -/
def dropTrailing (p : Char → Bool) (l : List Char) : List Char :=
  (l.reverse.dropWhile p).reverse

/-- Python `str.strip()` on the character list of a string. -/
def pyStrip (l : List Char) : List Char :=
  dropTrailing pyWs (l.dropWhile pyWs)

/-- `re.sub` of a one-character-class regex with `+`: every maximal run of
characters satisfying `p` is replaced by `rep`.  The flag records whether the
previous character was part of a run (in which case nothing more is emitted
for the current run). -/
def subRuns (p : Char → Bool) (rep : List Char) : List Char → Bool → List Char
  | [], _ => []
  | c :: cs, inRun =>
    if p c then (if inRun then [] else rep) ++ subRuns p rep cs true
    else c :: subRuns p rep cs false

/-- Embedding of `_sanitize_filename` (lines 138-144) on character lists:
`strip`, then `re.sub(r"[\\/]+", "-", .)`, then `re.sub(r"[^\w\-. ]+", "", .)`
(deleting characters outside the class), then `re.sub(r"\s+", " ", .)`, then
a final `strip`. -/
def sanitize_core (l : List Char) : List Char :=
  let s1 := pyStrip l
  let s2 := subRuns isSep ['-'] s1 false
  let s3 := s2.filter inFileClass
  let s4 := subRuns pyWs [' '] s3 false
  pyStrip s4

/-- `_sanitize_filename` as a function on strings. -/
def sanitize_filename (name : String) : String :=
  (sanitize_core name.toList).asString

/-- `ChapterRange` (lines 31-35): title with 1-based inclusive page bounds. -/
structure ChapterRange where
  title : String
  start_page : Int
  end_page : Int
deriving DecidableEq, Repr

/-- Embedding of `compute_ranges` (lines 72-83).  The Python loop reads the
next entry's start page when one exists (`toc_entries[idx + 1][1] - 1`),
otherwise uses `total_pages`, and clamps `end` up to `start` when the
computed end precedes the start. -/
def compute_ranges : List (String × Int) → Int → List ChapterRange
  | [], _ => []
  | (title, start) :: rest, total_pages =>
    let e0 : Int :=
      match rest with
      | [] => total_pages
      | (_, nxt) :: _ => nxt - 1
    let e1 : Int := if e0 < start then start else e0
    { title := title, start_page := start, end_page := e1 } ::
      compute_ranges rest total_pages

/-- Abstraction of a pypdf page by the two observations `is_blank_page`
makes of it: `contentsResult` is the outcome of `page.get_contents()`
(`Except.error` models a raised exception, the `Option` models `None`
versus a present content stream), and `textResult` is the outcome of
`page.extract_text()` (again `Except.error` for an exception; the `Option`
models a `None` return, which the code guards with `or ""`). -/
structure Page where
  contentsResult : Except Unit (Option Unit)
  textResult : Except Unit (Option (List Char))

/-- The second `try` block of `is_blank_page` (lines 96-102):
`text = page.extract_text() or ""` followed by `if text.strip() == "":
return True`; an exception falls through to `return False`. -/
def blank_text_check (page : Page) : Bool :=
  match page.textResult with
  | Except.ok extracted =>
    let text := extracted.getD []
    if pyStrip text = [] then true else false
  | Except.error _ => false

/-- Embedding of `is_blank_page` (lines 86-103): if `get_contents()`
succeeds and returns `None` the page is blank; otherwise (including when
content access raises) fall through to the text-extraction check. -/
def is_blank_page (page : Page) : Bool :=
  match page.contentsResult with
  | Except.ok contents =>
    if contents.isNone then true
    else blank_text_check page
  | Except.error _ => blank_text_check page

/-- Python `range(a, b)` over integers (empty when `b ≤ a`). -/
def pyRange (a b : Int) : List Int :=
  (List.range (b - a).toNat).map (fun k : Nat => a + (k : Int))

/-- `reader.pages[p]` for a 0-based index (in-range access only; the script
only indexes pages inside the document). -/
def pageAt (pages : List Page) (p : Int) : Option Page :=
  if 0 ≤ p then pages.get? p.toNat else none

/-- `is_blank_page(reader, p)` as used by `split_pdf`; stated via `pageAt`.
(An out-of-range index would raise in Python; the claims about trimming
only exercise in-range indices, where this model agrees with the code.) -/
def blankAt (pages : List Page) (p : Int) : Bool :=
  match pageAt pages p with
  | some pg => is_blank_page pg
  | none => false

/-- Lines 119-124 of `split_pdf`: the 0-based last page actually included,
after the blank-page trim (`max(start0, end0 - 1)` when the last page of the
range is blank). -/
def last_page_to_include (reader : List Page) (info : ChapterRange) : Int :=
  let start0 := info.start_page - 1
  let end0 := info.end_page - 1
  if blankAt reader end0 then max start0 (end0 - 1) else end0

/-- Line 125 of `split_pdf`: the 0-based indices of the pages added to the
writer for one chapter, `range(start0, last_page_to_include + 1)`. -/
def chapterPages (reader : List Page) (info : ChapterRange) : List Int :=
  pyRange (info.start_page - 1) (last_page_to_include reader info + 1)

/-- The predefined output names (lines 20-28). -/
def chapter_names : List String :=
  ["01-mol-bio.pdf", "02-history.pdf", "03-genomes.pdf", "04-genes.pdf",
   "05-alignment-m.pdf", "06-alignment-t.pdf", "07-filogeny.pdf"]

/-- Python `f"{n:02d}"` for a nonnegative value. -/
def pad2 (n : Nat) : String :=
  if n < 10 then "0" ++ toString n else toString n

/-- Lines 128-131 of `split_pdf`: the output filename for chapter `i`
(0-based) — the predefined name when enabled and available, otherwise the
sanitized `f"{i+1:02d}-{title}.pdf"`. -/
def resolve_filename (use_chapter_names : Bool) (i : Nat) (title : String) : String :=
  if use_chapter_names = true ∧ i < chapter_names.length then
    chapter_names.getD i ""
  else
    sanitize_filename (pad2 (i + 1) ++ "-" ++ title ++ ".pdf")

/-- One written chapter file, as (filename, 0-based page indices copied from
the source document into the new writer). -/
def chapter_output (reader : List Page) (i : Nat) (info : ChapterRange)
    (use_chapter_names : Bool) : String × List Int :=
  (resolve_filename use_chapter_names i info.title, chapterPages reader info)

/-- Line 115 of `split_pdf`: chapter `i` is processed unless a single-index
filter is present and names a different chapter. -/
def keep_chapter (only_index : Option Nat) (i : Nat) : Bool :=
  match only_index with
  | some j => i == j
  | none => true

/-- Embedding of `split_pdf` (lines 106-135) as the list of written chapter
files, in processing order. -/
def split_pdf (reader : List Page) (ranges : List ChapterRange)
    (use_chapter_names : Bool) (only_index : Option Nat) : List (String × List Int) :=
  ranges.enum.filterMap (fun p =>
    if keep_chapter only_index p.1 then
      some (chapter_output reader p.1 p.2 use_chapter_names)
    else none)

/-- The state threaded through `split_pdf`'s loop: the source document's
pages (owned by the open `PdfReader`) and the files written so far. -/
structure SplitState where
  source : List Page
  written : List (String × List Int)

/-- `split_pdf`'s loop as an explicit state transformer: each iteration only
reads `source` (page access and the blank check) and appends one written
file; no operation of the loop body writes to the reader. -/
def split_pdf_loop (st : SplitState) (ranges : List ChapterRange)
    (use_chapter_names : Bool) (only_index : Option Nat) : SplitState :=
  ranges.enum.foldl (fun s p =>
    if keep_chapter only_index p.1 then
      { source := s.source,
        written := s.written ++ [chapter_output s.source p.1 p.2 use_chapter_names] }
    else s) st

/-- A page whose content access raises but whose text extraction succeeds
with the empty string. -/
def failContentsPage : Page :=
  { contentsResult := Except.error (), textResult := Except.ok (some []) }

/-- A page with no content stream (`get_contents()` returns `None`): blank. -/
def blankPage : Page :=
  { contentsResult := Except.ok none, textResult := Except.ok (some []) }

/-! ### Basic facts about `pyRange` -/

theorem mem_pyRange {a b p : Int} : p ∈ pyRange a b ↔ a ≤ p ∧ p < b := by
  simp only [pyRange, List.mem_map, List.mem_range]
  constructor
  · rintro ⟨k, hk, rfl⟩
    omega
  · rintro ⟨h1, h2⟩
    exact ⟨(p - a).toNat, by omega, by omega⟩

theorem length_pyRange (a b : Int) : (pyRange a b).length = (b - a).toNat := by
  unfold pyRange
  rw [List.length_map, List.length_range]

theorem pairwise_pyRange (a b : Int) : (pyRange a b).Pairwise (· < ·) := by
  unfold pyRange
  rw [List.pairwise_map]
  refine (List.pairwise_lt_range _).imp ?_
  intro h
  omega

theorem mem_chapterPages {reader : List Page} {info : ChapterRange} {p : Int} :
    p ∈ chapterPages reader info ↔
      info.start_page - 1 ≤ p ∧ p ≤ last_page_to_include reader info := by
  rw [show chapterPages reader info
      = pyRange (info.start_page - 1) (last_page_to_include reader info + 1) from rfl,
    mem_pyRange]
  omega

theorem length_chapterPages (reader : List Page) (info : ChapterRange) :
    (chapterPages reader info).length
      = (last_page_to_include reader info + 1 - (info.start_page - 1)).toNat :=
  length_pyRange _ _

theorem last_page_of_blank {reader : List Page} {info : ChapterRange}
    (hb : blankAt reader (info.end_page - 1) = true) :
    last_page_to_include reader info
      = max (info.start_page - 1) (info.end_page - 1 - 1) := by
  simp [last_page_to_include, hb]

theorem last_page_of_not_blank {reader : List Page} {info : ChapterRange}
    (hb : blankAt reader (info.end_page - 1) = false) :
    last_page_to_include reader info = info.end_page - 1 := by
  simp [last_page_to_include, hb]

/-- C5: for every chapter range, the pages copied into the output document
are exactly the 0-based indices from `start_page - 1` up to the (possibly
trimmed) last included page, and they appear strictly increasing — so the
output has no page outside the interval, no duplicate, and no reordering. -/
theorem splitter_copies_exact_interval (reader : List Page) (info : ChapterRange) :
    (∀ p : Int, p ∈ chapterPages reader info ↔
      info.start_page - 1 ≤ p ∧ p ≤ last_page_to_include reader info) ∧
    (chapterPages reader info).Pairwise (· < ·) :=
  ⟨fun _ => mem_chapterPages, pairwise_pyRange _ _⟩

/-- C3 (amended): for a well-formed range (`start_page ≤ end_page`), the
effective last page never drops below `start_page - 1` (0-based), the output
has at least one page, only the last page of the range is ever dropped, a
blank last page shortens the output by one exactly when the range has at
least two pages, and a non-blank last page leaves the full range. -/
theorem blank_trim_amended (reader : List Page) (info : ChapterRange)
    (h : info.start_page ≤ info.end_page) :
    info.start_page - 1 ≤ last_page_to_include reader info ∧
    1 ≤ (chapterPages reader info).length ∧
    (∀ p : Int, info.start_page - 1 ≤ p → p ≤ info.end_page - 2 →
      p ∈ chapterPages reader info) ∧
    (blankAt reader (info.end_page - 1) = true → info.start_page < info.end_page →
      ((chapterPages reader info).length : Int)
        = (info.end_page - info.start_page + 1) - 1) ∧
    (blankAt reader (info.end_page - 1) = false →
      ((chapterPages reader info).length : Int)
        = info.end_page - info.start_page + 1) := by
  have hlen := length_chapterPages reader info
  cases hb : blankAt reader (info.end_page - 1) with
  | false =>
    have hl := last_page_of_not_blank hb
    refine ⟨by omega, by omega, ?_, ?_, fun _ => by omega⟩
    · intro p h1 h2
      exact mem_chapterPages.mpr ⟨h1, by omega⟩
    · intro hcontr
      exact absurd hcontr (by simp [hb])
  | true =>
    have hl := last_page_of_blank hb
    have hmax : info.start_page - 1 ≤ max (info.start_page - 1) (info.end_page - 1 - 1) :=
      le_max_left _ _
    refine ⟨by omega, by omega, ?_, ?_, ?_⟩
    · intro p h1 h2
      refine mem_chapterPages.mpr ⟨h1, ?_⟩
      have : info.end_page - 1 - 1 ≤ max (info.start_page - 1) (info.end_page - 1 - 1) :=
        le_max_right _ _
      omega
    · intro _ hlt
      have hmax2 : max (info.start_page - 1) (info.end_page - 1 - 1)
          = info.end_page - 1 - 1 := max_eq_right (by omega)
      omega
    · intro hcontr
      exact absurd hcontr (by simp [hb])

/-- C3 counterexample: a one-page chapter whose single page is blank.  The
trim clamps at `start_page`, so the written chapter still has 1 page — not
"one fewer page than the raw range length" (which would be 0). -/
theorem blank_trim_counterexample :
    blankAt [blankPage] ((⟨"A", 1, 1⟩ : ChapterRange).end_page - 1) = true ∧
    ((chapterPages [blankPage] ⟨"A", 1, 1⟩).length : Int) ≠
      (((⟨"A", 1, 1⟩ : ChapterRange).end_page
          - (⟨"A", 1, 1⟩ : ChapterRange).start_page + 1) - 1) := by
  constructor
  · decide
  · decide

theorem blank_trim_amended_witness :
    ((chapterPages [] ⟨"A", 1, 2⟩).length : Int) = 2 - 1 + 1 := by
  have h := blank_trim_amended [] ⟨"A", 1, 2⟩ (by decide)
  have hb : blankAt [] ((⟨"A", 1, 2⟩ : ChapterRange).end_page - 1) = false := by decide
  exact h.2.2.2.2 hb

/-- C4 (amended): `is_blank_page` returns `true` exactly when content access
succeeds with no content stream, or text extraction succeeds with a result
(`None` included, via the `or ""` guard) that strips to the empty string.  In
particular no failure escapes as an error: a content-access failure falls
back to the text check, and a text-extraction failure yields "not blank". -/
theorem is_blank_page_characterization (p : Page) :
    is_blank_page p = true ↔
      p.contentsResult = Except.ok none ∨
      ∃ t, p.textResult = Except.ok t ∧ pyStrip (t.getD []) = [] := by
  rcases p with ⟨cr, tr⟩
  have htext : blank_text_check ⟨cr, tr⟩ = true ↔
      ∃ t, tr = Except.ok t ∧ pyStrip (t.getD []) = [] := by
    rcases tr with e | t
    · simp [blank_text_check]
    · by_cases hst : pyStrip (t.getD []) = [] <;> simp [blank_text_check, hst]
  rcases cr with e | c
  · simpa [is_blank_page] using htext
  · rcases c with _ | u
    · simp [is_blank_page]
    · simpa [is_blank_page] using htext

/-- C4 counterexample: a page whose content access raises while text
extraction succeeds with the empty string.  The claim demands "not blank"
for any content-access failure, but the code falls back to the text check
and reports the page blank. -/
theorem blank_fail_open_counterexample :
    ¬ ((is_blank_page failContentsPage = true ↔
          (failContentsPage.contentsResult = Except.ok none ∨
           ∃ t, failContentsPage.textResult = Except.ok t ∧ pyStrip (t.getD []) = [])) ∧
       (((∃ e, failContentsPage.contentsResult = Except.error e) ∨
         (∃ e, failContentsPage.textResult = Except.error e)) →
        is_blank_page failContentsPage = false)) := by
  intro h
  have hfalse := h.2 (Or.inl ⟨(), rfl⟩)
  have htrue : is_blank_page failContentsPage = true := rfl
  simp [htrue] at hfalse

/-- C9: the split is a pure function of its inputs — identical source pages,
ranges and options produce identical output files.  (Byte-level identity of
the persisted PDFs follows because the external writer serializes exactly
the recorded pages.) -/
theorem split_pdf_deterministic (r1 r2 : List Page) (g1 g2 : List ChapterRange)
    (u1 u2 : Bool) (o1 o2 : Option Nat)
    (hr : r1 = r2) (hg : g1 = g2) (hu : u1 = u2) (ho : o1 = o2) :
    split_pdf r1 g1 u1 o1 = split_pdf r2 g2 u2 o2 := by
  subst hr; subst hg; subst hu; subst ho; rfl

theorem split_pdf_deterministic_witness :
    split_pdf [blankPage] [⟨"A", 1, 1⟩] true none
      = split_pdf [blankPage] [⟨"A", 1, 1⟩] true none :=
  split_pdf_deterministic [blankPage] [blankPage] [⟨"A", 1, 1⟩] [⟨"A", 1, 1⟩]
    true true none none rfl rfl rfl rfl

/-! ### Facts about `compute_ranges` -/

/-- The unclamped end page the loop body of `compute_ranges` computes for
entry `i`: the next entry's start page minus one, or `total` for the last
entry. -/
def next_start_end (toc : List (String × Int)) (total : Int) (i : Nat) : Int :=
  match toc.get? (i + 1) with
  | some nxt => nxt.2 - 1
  | none => total

/-- The end page the loop body of `compute_ranges` assigns to entry `i`:
`next_start_end`, clamped up to the entry's own start page. -/
def clamped_end (toc : List (String × Int)) (total : Int) (i : Nat) (start : Int) : Int :=
  if next_start_end toc total i < start then start else next_start_end toc total i

theorem compute_ranges_cons (t : String) (s : Int) (rest : List (String × Int))
    (total : Int) :
    compute_ranges ((t, s) :: rest) total =
      { title := t, start_page := s,
        end_page := clamped_end ((t, s) :: rest) total 0 s } ::
        compute_ranges rest total := by
  cases rest with
  | nil => rfl
  | cons hd2 rest2 => rfl

theorem compute_ranges_length (toc : List (String × Int)) (total : Int) :
    (compute_ranges toc total).length = toc.length := by
  induction toc with
  | nil => rfl
  | cons hd rest ih =>
    obtain ⟨t, s⟩ := hd
    rw [compute_ranges_cons, List.length_cons, List.length_cons, ih]

theorem compute_ranges_get? (toc : List (String × Int)) (total : Int) (i : Nat)
    (ts : String × Int) (h : toc.get? i = some ts) :
    (compute_ranges toc total).get? i =
      some { title := ts.1, start_page := ts.2,
             end_page := clamped_end toc total i ts.2 } := by
  induction toc generalizing i with
  | nil => simp at h
  | cons hd rest ih =>
    obtain ⟨t, s⟩ := hd
    rw [compute_ranges_cons]
    cases i with
    | zero =>
      simp only [List.get?] at h
      cases h
      rfl
    | succ j =>
      simp only [List.get?] at h ⊢
      exact ih j h

theorem clamped_end_ge (toc : List (String × Int)) (total : Int) (i : Nat)
    (start : Int) : start ≤ clamped_end toc total i start := by
  unfold clamped_end
  split <;> omega

theorem clamped_end_le (toc : List (String × Int)) (total : Int) (i : Nat)
    (start : Int) (h1 : start ≤ total)
    (h2 : ∀ nxt, toc.get? (i + 1) = some nxt → nxt.2 ≤ total) :
    clamped_end toc total i start ≤ total := by
  have hn : next_start_end toc total i ≤ total := by
    unfold next_start_end
    cases hg : toc.get? (i + 1) with
    | none => show total ≤ total; omega
    | some nxt =>
      have := h2 nxt hg
      show nxt.2 - 1 ≤ total
      omega
  unfold clamped_end
  split <;> omega

/-- C2: `compute_ranges` maps the empty outline to the empty range list;
entry `i` keeps its title and start page and gets end page
`next start - 1` (last entry: `total_pages`), clamped up to its own start
page when the computed end precedes it, never raising; and the spec's
scenario `[("Intro",1),("Bio",10),("History",25)]` with 40 pages yields
`(1,9), (10,24), (25,40)`. -/
theorem compute_ranges_end_page_rule :
    (∀ total : Int, compute_ranges [] total = []) ∧
    (∀ toc : List (String × Int), ∀ total : Int, ∀ i : Nat, ∀ ts : String × Int,
      toc.get? i = some ts →
      (compute_ranges toc total).get? i =
        some { title := ts.1, start_page := ts.2,
               end_page := clamped_end toc total i ts.2 }) ∧
    compute_ranges [("Intro", 1), ("Bio", 10), ("History", 25)] 40 =
      [⟨"Intro", 1, 9⟩, ⟨"Bio", 10, 24⟩, ⟨"History", 25, 40⟩] :=
  ⟨fun _ => rfl, compute_ranges_get?, by decide⟩

theorem compute_ranges_end_page_rule_witness :
    (compute_ranges [("A", 3), ("B", 7)] 9).get? 1 = some ⟨"B", 7, 9⟩ := by
  have h := compute_ranges_end_page_rule.2.1 [("A", 3), ("B", 7)] 9 1 ("B", 7) rfl
  simpa [clamped_end] using h

/-- C1 counterexample: two outline entries sharing start page 5 trigger the
clamp, and the resulting ranges `(5,5), (5,10)` are not contiguous:
`5 + 1 ≠ 5`. -/
theorem ranges_contiguity_counterexample :
    compute_ranges [("A", 5), ("B", 5)] 10 = [⟨"A", 5, 5⟩, ⟨"B", 5, 10⟩] ∧
    ¬ ((⟨"A", 5, 5⟩ : ChapterRange).end_page + 1
        = (⟨"B", 5, 10⟩ : ChapterRange).start_page) := by
  exact ⟨by decide, by decide⟩

/-- C1 (amended): when the outline's start pages are strictly increasing and
each start page is at most the page count, `compute_ranges` returns exactly
one range per entry, every range satisfies
`start_page ≤ end_page ≤ total_pages`, and consecutive ranges are
contiguous (`end_page + 1` is the next range's `start_page`). -/
theorem ranges_count_bounds_contiguity (toc : List (String × Int)) (total : Int)
    (hmono : List.Chain' (fun a b : String × Int => a.2 < b.2) toc)
    (hle : ∀ e ∈ toc, e.2 ≤ total) :
    (compute_ranges toc total).length = toc.length ∧
    (∀ r ∈ compute_ranges toc total, r.start_page ≤ r.end_page ∧ r.end_page ≤ total) ∧
    List.Chain' (fun r s : ChapterRange => r.end_page + 1 = s.start_page)
      (compute_ranges toc total) := by
  refine ⟨compute_ranges_length toc total, ?_, ?_⟩
  · induction toc with
    | nil => intro r hr; simp [compute_ranges] at hr
    | cons hd rest ih =>
      obtain ⟨t, s⟩ := hd
      intro r hr
      have hs : s ≤ total := hle (t, s) (List.mem_cons_self _ _)
      have hle' : ∀ e ∈ rest, e.2 ≤ total :=
        fun e he => hle e (List.mem_cons_of_mem _ he)
      have hmono' := (List.chain'_cons'.mp hmono).2
      rw [compute_ranges_cons] at hr
      rcases List.mem_cons.mp hr with hr0 | hrrest
      · subst hr0
        refine ⟨clamped_end_ge _ _ _ _, ?_⟩
        refine clamped_end_le _ _ _ _ hs ?_
        intro nxt hg
        simp only [List.get?] at hg
        exact hle' nxt (List.get?_mem hg)
      · exact ih hmono' hle' r hrrest
  · induction toc with
    | nil => simp [compute_ranges]
    | cons hd rest ih =>
      obtain ⟨t, s⟩ := hd
      have hle' : ∀ e ∈ rest, e.2 ≤ total :=
        fun e he => hle e (List.mem_cons_of_mem _ he)
      have hmono' := (List.chain'_cons'.mp hmono).2
      rw [compute_ranges_cons]
      cases rest with
      | nil => simp [compute_ranges]
      | cons hd2 rest2 =>
        obtain ⟨t2, s2⟩ := hd2
        have hlt : s < s2 := (List.chain'_cons'.mp hmono).1 (t2, s2) rfl
        refine List.chain'_cons'.mpr ⟨?_, ih hmono' hle'⟩
        intro y hy
        rw [compute_ranges_cons, List.head?_cons, Option.mem_def,
          Option.some_inj] at hy
        subst hy
        show clamped_end ((t, s) :: (t2, s2) :: rest2) total 0 s + 1 = s2
        have hce : clamped_end ((t, s) :: (t2, s2) :: rest2) total 0 s
            = if s2 - 1 < s then s else s2 - 1 := rfl
        rw [hce, if_neg (by omega)]
        omega

theorem ranges_count_bounds_contiguity_witness :
    (compute_ranges [("Intro", 1), ("Bio", 10), ("History", 25)] 40).length = 3 ∧
    List.Chain' (fun r s : ChapterRange => r.end_page + 1 = s.start_page)
      (compute_ranges [("Intro", 1), ("Bio", 10), ("History", 25)] 40) := by
  have h := ranges_count_bounds_contiguity [("Intro", 1), ("Bio", 10), ("History", 25)] 40
    (by norm_num [List.chain'_cons, List.chain'_singleton]) (by decide)
  exact ⟨h.1, h.2.2⟩

/-! ### The filename resolver and the splitter loop -/

/-- C7: when predefined names are enabled and position `i` has one,
the resolver returns `chapter_names[i]`; otherwise it returns the sanitized
name derived from the 1-based index and the title,
`_sanitize_filename(f"{i+1:02d}-{title}.pdf")`. -/
theorem resolver_rule (use_chapter_names : Bool) (i : Nat) (title : String) :
    (use_chapter_names = true → ∀ h : i < chapter_names.length,
      resolve_filename use_chapter_names i title = chapter_names.get ⟨i, h⟩) ∧
    (use_chapter_names = false ∨ chapter_names.length ≤ i →
      resolve_filename use_chapter_names i title =
        sanitize_filename (pad2 (i + 1) ++ "-" ++ title ++ ".pdf")) := by
  constructor
  · intro hu h
    subst hu
    unfold resolve_filename
    rw [if_pos ⟨rfl, h⟩]
    simp [List.getD_eq_getElem _ _ h, List.get_eq_getElem,
      List.getElem?_eq_getElem h]
  · intro hcase
    unfold resolve_filename
    rw [if_neg]
    rintro ⟨h1, h2⟩
    rcases hcase with hf | hge
    · rw [hf] at h1
      cases h1
    · omega

theorem resolver_rule_witness :
    resolve_filename true 0 "T" = "01-mol-bio.pdf" ∧
    resolve_filename false 0 "T" = sanitize_filename (pad2 1 ++ "-" ++ "T" ++ ".pdf") := by
  constructor
  · have h := (resolver_rule true 0 "T").1 rfl (by decide)
    simpa using h
  · exact (resolver_rule false 0 "T").2 (Or.inl rfl)

theorem split_pdf_loop_enumFrom (use_chapter_names : Bool) (only_index : Option Nat)
    (l : List ChapterRange) :
    ∀ (n : Nat) (st : SplitState),
      ((List.enumFrom n l).foldl (fun s p =>
          if keep_chapter only_index p.1 then
            { source := s.source,
              written := s.written
                ++ [chapter_output s.source p.1 p.2 use_chapter_names] }
          else s) st)
        = { source := st.source,
            written := st.written ++ (List.enumFrom n l).filterMap (fun p =>
              if keep_chapter only_index p.1 then
                some (chapter_output st.source p.1 p.2 use_chapter_names)
              else none) } := by
  induction l with
  | nil => intro n st; simp
  | cons hd tl ih =>
    intro n st
    rw [show List.enumFrom n (hd :: tl) = (n, hd) :: List.enumFrom (n + 1) tl from rfl,
      List.foldl_cons, List.filterMap_cons]
    cases hk : keep_chapter only_index (n, hd).1 with
    | false =>
      rw [if_neg (by simp [hk]), if_neg (by simp [hk])]
      exact ih (n + 1) st
    | true =>
      rw [if_pos (by simp [hk]), if_pos (by simp [hk]), ih (n + 1)]
      simp

/-- C8: the splitter never mutates the source document — after processing
every chapter the threaded state still holds the original page list — and
the files written are exactly those `split_pdf` computes from the original
source, each chapter's output a function of the source and its own range
only (independent of previously written chapters). -/
theorem split_never_mutates_source (st : SplitState) (ranges : List ChapterRange)
    (use_chapter_names : Bool) (only_index : Option Nat) :
    (split_pdf_loop st ranges use_chapter_names only_index).source = st.source ∧
    (split_pdf_loop st ranges use_chapter_names only_index).written =
      st.written ++ split_pdf st.source ranges use_chapter_names only_index := by
  have h := split_pdf_loop_enumFrom use_chapter_names only_index ranges 0 st
  constructor
  · rw [show split_pdf_loop st ranges use_chapter_names only_index
        = (List.enumFrom 0 ranges).foldl _ st from rfl, h]
  · rw [show split_pdf_loop st ranges use_chapter_names only_index
        = (List.enumFrom 0 ranges).foldl _ st from rfl, h]
    rfl

/-! ### Facts about `sanitize_core` / `sanitize_filename` -/

theorem subRuns_cons_pos (p : Char → Bool) (rep : List Char) (hd : Char)
    (tl : List Char) (b : Bool) (hp : p hd = true) :
    subRuns p rep (hd :: tl) b
      = (if b = true then [] else rep) ++ subRuns p rep tl true := by
  simp only [subRuns, if_pos hp]

theorem subRuns_cons_neg (p : Char → Bool) (rep : List Char) (hd : Char)
    (tl : List Char) (b : Bool) (hp : p hd = false) :
    subRuns p rep (hd :: tl) b = hd :: subRuns p rep tl false := by
  simp only [subRuns]
  rw [if_neg (by simp [hp])]

theorem mem_subRuns {p : Char → Bool} {rep : List Char} :
    ∀ {l : List Char} {b : Bool} {c : Char},
      c ∈ subRuns p rep l b → c ∈ rep ∨ (c ∈ l ∧ p c = false) := by
  intro l
  induction l with
  | nil => intro b c h; simp [subRuns] at h
  | cons hd tl ih =>
    intro b c h
    cases hp : p hd with
    | true =>
      rw [subRuns_cons_pos _ _ _ _ _ hp] at h
      rcases List.mem_append.mp h with h1 | h2
      · left
        cases b with
        | true => simp at h1
        | false => simpa using h1
      · rcases ih h2 with h3 | ⟨h4, h5⟩
        · exact Or.inl h3
        · exact Or.inr ⟨List.mem_cons_of_mem _ h4, h5⟩
    | false =>
      rw [subRuns_cons_neg _ _ _ _ _ hp] at h
      rcases List.mem_cons.mp h with rfl | h2
      · exact Or.inr ⟨List.mem_cons_self _ _, hp⟩
      · rcases ih h2 with h3 | ⟨h4, h5⟩
        · exact Or.inl h3
        · exact Or.inr ⟨List.mem_cons_of_mem _ h4, h5⟩

theorem mem_pyStrip {l : List Char} {c : Char} (h : c ∈ pyStrip l) : c ∈ l := by
  unfold pyStrip dropTrailing at h
  rw [List.mem_reverse] at h
  have h2 := (List.dropWhile_sublist _).subset h
  rw [List.mem_reverse] at h2
  exact (List.dropWhile_sublist _).subset h2

theorem sanitize_core_mem_class {l : List Char} {c : Char}
    (h : c ∈ sanitize_core l) : inFileClass c = true := by
  have h1 : c ∈ subRuns pyWs [' ']
      ((subRuns isSep ['-'] (pyStrip l) false).filter inFileClass) false :=
    mem_pyStrip h
  rcases mem_subRuns h1 with hsp | ⟨h2, _⟩
  · have : c = ' ' := by simpa using hsp
    subst this
    decide
  · exact (List.mem_filter.mp h2).2

/-- C6: every character of a sanitized filename lies in the class
`[\w\-. ]`; in particular the result contains no `/` and no `\`, hence no
path separator (and so no traversal step `../` either, the name being a
single path component). -/
theorem sanitize_no_separators (name : String) (c : Char)
    (hc : c ∈ (sanitize_filename name).toList) :
    inFileClass c = true ∧ c ≠ '/' ∧ c ≠ '\\' := by
  have hcl : c ∈ sanitize_core name.toList := hc
  have h1 := sanitize_core_mem_class hcl
  refine ⟨h1, ?_, ?_⟩
  · rintro rfl
    revert h1
    decide
  · rintro rfl
    revert h1
    decide

theorem sanitize_no_separators_witness :
    inFileClass 'a' = true ∧ 'a' ≠ '/' ∧ 'a' ≠ '\\' :=
  sanitize_no_separators "a/b" 'a' (by decide)

/-! ### Idempotence of the sanitizer -/

theorem subRuns_eq_self_of_none {p : Char → Bool} {rep : List Char} :
    ∀ {l : List Char}, (∀ c ∈ l, p c = false) → subRuns p rep l false = l := by
  intro l
  induction l with
  | nil => intro _; rfl
  | cons hd tl ih =>
    intro h
    rw [subRuns_cons_neg _ _ _ _ _ (h hd (List.mem_cons_self _ _))]
    rw [ih (fun c hc => h c (List.mem_cons_of_mem _ hc))]

theorem head_dropWhile {p : Char → Bool} :
    ∀ {l : List Char} {c : Char}, (l.dropWhile p).head? = some c → p c = false := by
  intro l
  induction l with
  | nil => intro c h; cases h
  | cons hd tl ih =>
    intro c h
    rw [List.dropWhile_cons] at h
    by_cases hp : p hd = true
    · rw [if_pos hp] at h
      exact ih h
    · rw [if_neg hp] at h
      rw [List.head?_cons, Option.some_inj] at h
      subst h
      cases hv : p hd with
      | false => rfl
      | true => exact absurd hv hp

theorem dropWhile_eq_self_of_head (p : Char → Bool) (l : List Char)
    (h : ∀ c, l.head? = some c → p c = false) : l.dropWhile p = l := by
  cases l with
  | nil => rfl
  | cons hd tl =>
    rw [List.dropWhile_cons, if_neg]
    simp [h hd rfl]

theorem dropTrailing_isPrefixOf (p : Char → Bool) (l : List Char) :
    dropTrailing p l <+: l := by
  unfold dropTrailing
  have h2 := List.reverse_prefix.mpr (List.dropWhile_suffix (l := l.reverse) p)
  rwa [List.reverse_reverse] at h2

theorem head?_of_isPrefixOf {α : Type} {l₁ l₂ : List α} {c : α} (h : l₁ <+: l₂)
    (hc : l₁.head? = some c) : l₂.head? = some c := by
  obtain ⟨t, rfl⟩ := h
  cases l₁ with
  | nil => cases hc
  | cons a l =>
    rw [List.head?_cons, Option.some_inj] at hc
    subst hc
    rfl

theorem pyStrip_head {l : List Char} {c : Char}
    (h : (pyStrip l).head? = some c) : pyWs c = false :=
  head_dropWhile
    (head?_of_isPrefixOf (dropTrailing_isPrefixOf pyWs (l.dropWhile pyWs)) h)

theorem pyStrip_getLast {l : List Char} {c : Char}
    (h : (pyStrip l).getLast? = some c) : pyWs c = false := by
  have h' : ((l.dropWhile pyWs).reverse.dropWhile pyWs).reverse.getLast? = some c := h
  rw [List.getLast?_reverse] at h'
  exact head_dropWhile h'

theorem pyStrip_eq_self {l : List Char}
    (hh : ∀ c, l.head? = some c → pyWs c = false)
    (hl : ∀ c, l.getLast? = some c → pyWs c = false) : pyStrip l = l := by
  unfold pyStrip dropTrailing
  rw [dropWhile_eq_self_of_head _ _ hh]
  rw [dropWhile_eq_self_of_head _ _
    (fun c hc => hl c (by rwa [List.head?_reverse] at hc))]
  rw [List.reverse_reverse]

theorem subRuns_true_eq_false_of_head {p : Char → Bool} {rep : List Char}
    {l : List Char} (h : ∀ c, l.head? = some c → p c = false) :
    subRuns p rep l true = subRuns p rep l false := by
  cases l with
  | nil => rfl
  | cons hd tl =>
    rw [subRuns_cons_neg _ _ _ _ _ (h hd rfl),
      subRuns_cons_neg _ _ _ _ _ (h hd rfl)]

theorem head_subRuns_true {p : Char → Bool} {rep : List Char} :
    ∀ {l : List Char} {c : Char},
      (subRuns p rep l true).head? = some c → p c = false := by
  intro l
  induction l with
  | nil => intro c h; cases h
  | cons hd tl ih =>
    intro c h
    cases hp : p hd with
    | true =>
      rw [subRuns_cons_pos _ _ _ _ _ hp] at h
      rw [if_pos rfl, List.nil_append] at h
      exact ih h
    | false =>
      rw [subRuns_cons_neg _ _ _ _ _ hp, List.head?_cons, Option.some_inj] at h
      subst h
      exact hp

theorem subRuns_ws_eq_self : ∀ {l : List Char},
    (∀ c ∈ l, pyWs c = true → c = ' ') →
    l.Chain' (fun a b => ¬(pyWs a = true ∧ pyWs b = true)) →
    subRuns pyWs [' '] l false = l := by
  intro l
  induction l with
  | nil => intro _ _; rfl
  | cons hd tl ih =>
    intro hall hchain
    have hpair := List.chain'_cons'.mp hchain
    have hall' : ∀ c ∈ tl, pyWs c = true → c = ' ' :=
      fun c hc => hall c (List.mem_cons_of_mem _ hc)
    by_cases hp : pyWs hd = true
    · have hhd : hd = ' ' := hall hd (List.mem_cons_self _ _) hp
      have hheadtl : ∀ c, tl.head? = some c → pyWs c = false := by
        intro c hc
        have hrel := hpair.1 c (Option.mem_def.mpr hc)
        cases hv : pyWs c with
        | false => rfl
        | true => exact absurd ⟨hp, hv⟩ hrel
      rw [subRuns_cons_pos _ _ _ _ _ hp]
      rw [if_neg (by decide), List.singleton_append,
        subRuns_true_eq_false_of_head hheadtl, ih hall' hpair.2, hhd]
    · rw [subRuns_cons_neg _ _ _ _ _ (by simpa using hp), ih hall' hpair.2]

theorem chain_subRuns_ws (l : List Char) :
    ∀ b : Bool, (subRuns pyWs [' '] l b).Chain'
      (fun a c => ¬(pyWs a = true ∧ pyWs c = true)) := by
  induction l with
  | nil => intro b; exact List.chain'_nil
  | cons hd tl ih =>
    intro b
    cases hp : pyWs hd with
    | true =>
      rw [subRuns_cons_pos _ _ _ _ _ hp]
      cases b with
      | true =>
        rw [if_pos rfl, List.nil_append]
        exact ih true
      | false =>
        rw [if_neg (by decide), List.singleton_append]
        refine List.chain'_cons'.mpr ⟨?_, ih true⟩
        intro y hy
        have hws := head_subRuns_true (Option.mem_def.mp hy)
        rintro ⟨_, h2⟩
        rw [hws] at h2
        cases h2
    | false =>
      rw [subRuns_cons_neg _ _ _ _ _ hp]
      refine List.chain'_cons'.mpr ⟨?_, ih false⟩
      intro y _
      rintro ⟨h1, _⟩
      rw [hp] at h1
      cases h1

theorem chain'_dropWhile {α : Type} {R : α → α → Prop} {p : α → Bool} :
    ∀ {l : List α}, l.Chain' R → (l.dropWhile p).Chain' R := by
  intro l
  induction l with
  | nil => intro h; exact h
  | cons hd tl ih =>
    intro h
    rw [List.dropWhile_cons]
    by_cases hp : p hd = true
    · rw [if_pos hp]
      exact ih h.tail
    · rw [if_neg hp]
      exact h

theorem chain'_dropTrailing {R : Char → Char → Prop} {p : Char → Bool}
    {l : List Char} (h : l.Chain' R) : (dropTrailing p l).Chain' R := by
  unfold dropTrailing
  have h1 : List.Chain' (flip R) l.reverse := List.chain'_reverse.mpr h
  have h2 := chain'_dropWhile (p := p) h1
  exact List.chain'_reverse.mpr h2

theorem chain'_pyStrip {R : Char → Char → Prop} {l : List Char}
    (h : l.Chain' R) : (pyStrip l).Chain' R :=
  chain'_dropTrailing (chain'_dropWhile h)

theorem not_sep_of_inFileClass {c : Char} (h : inFileClass c = true) :
    isSep c = false := by
  cases hv : isSep c with
  | false => rfl
  | true =>
    have hc : c = '\\' ∨ c = '/' := by simpa [isSep] using hv
    rcases hc with rfl | rfl
    · exact absurd h (by decide)
    · exact absurd h (by decide)

theorem space_of_class_ws {c : Char} (hcl : inFileClass c = true)
    (hws : pyWs c = true) : c = ' ' := by
  have hc : c = ' ' ∨ c = '\t' ∨ c = '\n' ∨ c = '\r' ∨ c = '\x0b' ∨ c = '\x0c' := by
    have h2 := hws
    simp [pyWs] at h2
    tauto
  rcases hc with rfl | rfl | rfl | rfl | rfl | rfl
  · rfl
  all_goals exact absurd hcl (by decide)

theorem sanitize_core_chain (l : List Char) :
    (sanitize_core l).Chain' (fun a b => ¬(pyWs a = true ∧ pyWs b = true)) := by
  have h := chain_subRuns_ws
    ((subRuns isSep ['-'] (pyStrip l) false).filter inFileClass) false
  exact chain'_pyStrip h

theorem sanitize_core_head {l : List Char} {c : Char}
    (h : (sanitize_core l).head? = some c) : pyWs c = false :=
  pyStrip_head h

theorem sanitize_core_last {l : List Char} {c : Char}
    (h : (sanitize_core l).getLast? = some c) : pyWs c = false :=
  pyStrip_getLast h

/-- The sanitizer fixes any string whose characters already lie in the kept
class, with no two adjacent whitespace characters and no whitespace at
either end. -/
theorem sanitize_core_eq_self {r : List Char}
    (hclass : ∀ c ∈ r, inFileClass c = true)
    (hchain : r.Chain' (fun a b => ¬(pyWs a = true ∧ pyWs b = true)))
    (hhead : ∀ c, r.head? = some c → pyWs c = false)
    (hlast : ∀ c, r.getLast? = some c → pyWs c = false) :
    sanitize_core r = r := by
  have hsep : ∀ c ∈ r, isSep c = false :=
    fun c hc => not_sep_of_inFileClass (hclass c hc)
  have hws : ∀ c ∈ r, pyWs c = true → c = ' ' :=
    fun c hc => space_of_class_ws (hclass c hc)
  show pyStrip (subRuns pyWs [' ']
      ((subRuns isSep ['-'] (pyStrip r) false).filter inFileClass) false) = r
  rw [pyStrip_eq_self hhead hlast, subRuns_eq_self_of_none hsep,
    List.filter_eq_self.mpr hclass, subRuns_ws_eq_self hws hchain,
    pyStrip_eq_self hhead hlast]

/-- C10: `_sanitize_filename` is idempotent — sanitizing an already
sanitized name returns it unchanged. -/
theorem sanitize_filename_idempotent (name : String) :
    sanitize_filename (sanitize_filename name) = sanitize_filename name := by
  show (sanitize_core ((sanitize_core name.toList).asString).toList).asString
      = (sanitize_core name.toList).asString
  have htl : ((sanitize_core name.toList).asString).toList
      = sanitize_core name.toList := rfl
  rw [htl, sanitize_core_eq_self
    (fun c hc => sanitize_core_mem_class hc)
    (sanitize_core_chain name.toList)
    (fun c hc => sanitize_core_head hc)
    (fun c hc => sanitize_core_last hc)]

end SplitToChapters
